import Mathlib

/-!
Shallow embedding of the EEG spectral-feature pipeline of
`src/egg_code_with_frontend.py`. Real-valued numpy arrays are embedded as
lists of rationals (exact arithmetic); a (channels × frequency bins) matrix
is a list of rows. Fallible operations return `Option` or `Except`.
-/

/-- Error kinds of the design (§7 of the specification). -/
inductive EEGError where
  | insufficientData
  | shapeMismatch
  | degenerateBaseline
  deriving DecidableEq, Repr

/-- The boolean bin mask `band_idx = np.logical_and(freqs >= band_range[0],
freqs <= band_range[1])` computed inside `extract_band_power`. -/
def band_idx (freqs : List ℚ) (band_range : ℚ × ℚ) : List Bool :=
  freqs.map (fun f => decide (band_range.1 ≤ f ∧ f ≤ band_range.2))

/-- `extract_band_power(psds, freqs, band_range)`:
`freq_res = freqs[1] - freqs[0]`, select the columns of `psds` where the
mask holds, sum each row, multiply by `freq_res` and then by `1e12`.
Accessing `freqs[1]` on an axis with fewer than two bins is an index error,
embedded as `none`. -/
def extract_band_power (psds : List (List ℚ)) (freqs : List ℚ)
    (band_range : ℚ × ℚ) : Option (List ℚ) :=
  match freqs with
  | f0 :: f1 :: _ =>
      let freq_res := f1 - f0
      let mask := band_idx freqs band_range
      some (psds.map (fun row =>
        (((row.zip mask).filter (fun p => p.2)).map (fun p => p.1)).sum
          * freq_res * 10 ^ 12))
  | _ => none

/-- `np.mean` of a one-dimensional array: sum divided by length. -/
def np_mean (v : List ℚ) : ℚ := v.sum / (v.length : ℚ)

/-- The condition comparator of the summary section:
`rest_mean = np.mean(rest_band_power[band])`,
`task_mean = np.mean(task_band_power[band])`,
`percent_change = ((task_mean - rest_mean) / rest_mean) * 100`.
The division is unguarded: the function is total and has no error path. -/
def percent_change (rest_band_power task_band_power : List ℚ) : ℚ :=
  let rest_mean := np_mean rest_band_power
  let task_mean := np_mean task_band_power
  ((task_mean - rest_mean) / rest_mean) * 100

/-- Modelled from the spec: `calculate_psd` delegates Welch PSD estimation to
`mne.time_frequency.psd_array_welch`, whose implementation is not under
`src/`. §4.1: segment length is `4 × sampling_rate` samples, overlap
`2 × sampling_rate`; "if the signal has fewer samples than one segment
length, estimation must fail with an `InsufficientDataError` rather than
silently truncating the window". The returned pair records the Welch
segmentation parameters `(n_fft, n_overlap)` of the estimate; all channels
of a signal matrix share one sample axis. -/
def estimate_psd (signal : List (List ℚ)) (sampling_rate : ℕ) :
    Except EEGError (ℕ × ℕ) :=
  let n_times := (signal.headD []).length
  let n_fft := 4 * sampling_rate
  let n_overlap := 2 * sampling_rate
  if n_times < n_fft then .error .insufficientData
  else .ok (n_fft, n_overlap)

/-- A per-recording feature set: an ordered mapping band name → per-channel
band-power array (the dictionaries produced by `process_eeg_data`). -/
abbrev FeatureSet : Type := List (String × List ℚ)

/-- One client's feature collection: one `FeatureSet` per input recording. -/
abbrev ClientUpdate : Type := List FeatureSet

/-- Structural shape of a feature set: band names with channel counts. -/
def fsShape (fs : FeatureSet) : List (String × ℕ) :=
  fs.map (fun p => (p.1, p.2.length))

/-- Structural shape of a client's feature collection. -/
def updShape (u : ClientUpdate) : List (List (String × ℕ)) :=
  u.map fsShape

/-- Elementwise sum of two equally-shaped channel-power vectors. -/
def vecAdd (a b : List ℚ) : List ℚ := List.zipWith (fun x y => x + y) a b

/-- Elementwise sum of two equally-shaped feature sets (band names from the
first operand). -/
def fsAdd (a b : FeatureSet) : FeatureSet :=
  List.zipWith (fun p q => (p.1, vecAdd p.2 q.2)) a b

/-- Elementwise sum of two equally-shaped client collections. -/
def updAdd (a b : ClientUpdate) : ClientUpdate := List.zipWith fsAdd a b

/-- Scale one band entry's channel powers by `k`. -/
def entryScale (k : ℚ) (p : String × List ℚ) : String × List ℚ :=
  (p.1, p.2.map (fun x => k * x))

/-- Scale every channel-power entry of a feature set by `k`. -/
def fsScale (k : ℚ) (fs : FeatureSet) : FeatureSet := fs.map (entryScale k)

/-- Scale every channel-power entry of a client collection by `k`. -/
def updScale (k : ℚ) (u : ClientUpdate) : ClientUpdate := u.map (fsScale k)

/-- Modelled from the spec: `aggregate_client_updates(client_updates)` in the
source is `np.mean(client_updates, axis=0)`; numpy's elementwise reduction
over the leading (client) axis and its behaviour on mismatched structures
are not under `src/`. Following §4.5: at least one client is required, all
entries must be structurally identical (violation is a `ShapeMismatchError`,
not a best-effort broadcast), and the result is the elementwise arithmetic
mean across the client axis, shape-preserving. -/
def aggregate_client_updates (client_updates : List ClientUpdate) :
    Except EEGError ClientUpdate :=
  match client_updates with
  | [] => .error .shapeMismatch
  | u :: rest =>
      if rest.all (fun v => decide (updShape v = updShape u)) then
        .ok (updScale (1 / ((rest.length + 1 : ℕ) : ℚ)) (rest.foldl updAdd u))
      else
        .error .shapeMismatch

/-- C2: for every signal whose sample count is smaller than one segment
length (4 × sampling_rate samples), PSD estimation fails with
`InsufficientDataError` instead of silently truncating the window. -/
theorem estimate_psd_short_signal (signal : List (List ℚ)) (sampling_rate : ℕ)
    (h : (signal.headD []).length < 4 * sampling_rate) :
    estimate_psd signal sampling_rate = .error .insufficientData := by
  unfold estimate_psd
  rw [List.headD_eq_head?] at h
  simp [h]

/-- Witness for C2: a 100-sample signal at 1000 Hz sampling rate
(window = 4000 samples) yields `InsufficientDataError`. -/
theorem estimate_psd_short_signal_witness :
    estimate_psd [List.replicate 100 (0:ℚ)] 1000 = .error .insufficientData :=
  estimate_psd_short_signal [List.replicate 100 (0:ℚ)] 1000 (by decide)

/-- C3 evidence: at a zero rest baseline (`np_mean [0,0] = 0`) the condition
comparator still returns the unguarded quotient
`(task_mean - rest_mean) / rest_mean * 100` — it is a total function with
no `DegenerateBaselineError` path (in IEEE arithmetic this quotient is
rendered as `inf`/`NaN`). -/
theorem percent_change_zero_baseline_unguarded :
    np_mean [(0:ℚ), 0] = 0 ∧
    percent_change [(0:ℚ), 0] [(5:ℚ), 5]
      = (np_mean [(5:ℚ), 5] - np_mean [(0:ℚ), 0]) / np_mean [(0:ℚ), 0] * 100 := by
  constructor
  · norm_num [np_mean]
  · rfl

/-- C4: for a nonzero rest mean the comparator returns
`(mean_task - mean_rest) / mean_rest * 100` (arithmetic means over the
channel axis), and equal means give percent change 0. -/
theorem percent_change_formula (rest task : List ℚ) (h : np_mean rest ≠ 0) :
    percent_change rest task
      = (np_mean task - np_mean rest) / np_mean rest * 100
    ∧ (np_mean rest = np_mean task → percent_change rest task = 0) := by
  refine ⟨rfl, fun heq => ?_⟩
  unfold percent_change
  rw [← heq]
  simp

/-- Witness for C4: channels `[1, 3]` at rest and `[2, 2]` at task have equal
nonzero means, so the percent change is 0. -/
theorem percent_change_formula_witness :
    percent_change [(1:ℚ), 3] [(2:ℚ), 2]
      = (np_mean [(2:ℚ), 2] - np_mean [(1:ℚ), 3]) / np_mean [(1:ℚ), 3] * 100
    ∧ (np_mean [(1:ℚ), 3] = np_mean [(2:ℚ), 2]
        → percent_change [(1:ℚ), 3] [(2:ℚ), 2] = 0) :=
  percent_change_formula [1, 3] [2, 2] (by norm_num [np_mean])

/-- Reduction of `extract_band_power` on an axis with at least two bins. -/
theorem extract_band_power_cons (psds : List (List ℚ)) (f0 f1 : ℚ)
    (rest : List ℚ) (band_range : ℚ × ℚ) :
    extract_band_power psds (f0 :: f1 :: rest) band_range
      = some (psds.map (fun row =>
          (((row.zip (band_idx (f0 :: f1 :: rest) band_range)).filter
              (fun p => p.2)).map (fun p => p.1)).sum * (f1 - f0) * 10 ^ 12)) :=
  rfl

/-- An empty frequency axis is an index error. -/
theorem extract_band_power_nil (psds : List (List ℚ)) (band_range : ℚ × ℚ) :
    extract_band_power psds [] band_range = none := rfl

/-- A one-bin frequency axis is an index error. -/
theorem extract_band_power_single (psds : List (List ℚ)) (f0 : ℚ)
    (band_range : ℚ × ℚ) :
    extract_band_power psds [f0] band_range = none := rfl

/-- The masked column selection and row sum, written as an indexed sum over
all frequency bins. -/
theorem filter_zip_sum (lo hi : ℚ) (freqs : List ℚ) :
    ∀ row : List ℚ, row.length = freqs.length →
      (((row.zip (band_idx freqs (lo, hi))).filter (fun p => p.2)).map
          (fun p => p.1)).sum
        = ∑ f ∈ Finset.range freqs.length,
            if lo ≤ freqs.getD f 0 ∧ freqs.getD f 0 ≤ hi
            then row.getD f 0 else 0 := by
  induction freqs with
  | nil =>
      intro row h
      rw [List.length_nil] at h
      rw [List.eq_nil_of_length_eq_zero h]
      simp
  | cons g gs ih =>
      intro row h
      cases row with
      | nil => simp at h
      | cons x xs =>
          have hx : xs.length = gs.length := by simpa using h
          have hb : band_idx (g :: gs) (lo, hi)
              = decide (lo ≤ g ∧ g ≤ hi) :: band_idx gs (lo, hi) := rfl
          rw [hb, List.zip_cons_cons, List.length_cons, Finset.sum_range_succ']
          simp only [List.getD_cons_succ, List.getD_cons_zero]
          rw [← ih xs hx]
          by_cases hc : lo ≤ g ∧ g ≤ hi
          · simp [List.filter_cons, hc, add_comm]
          · simp [List.filter_cons, hc]

/-- Per-channel characterization of `extract_band_power`: channel `c` gets
`Δf × (sum of psds[c, f] over the bins inside the band) × 10^12`. -/
theorem extract_band_power_getD (psds : List (List ℚ)) (freqs : List ℚ)
    (lo hi : ℚ) (c : ℕ) (h2 : 2 ≤ freqs.length) (hc : c < psds.length)
    (hrect : ∀ row ∈ psds, row.length = freqs.length) :
    ∃ bp, extract_band_power psds freqs (lo, hi) = some bp ∧
      bp.getD c 0
        = (freqs.getD 1 0 - freqs.getD 0 0) *
          (∑ f ∈ Finset.range freqs.length,
            if lo ≤ freqs.getD f 0 ∧ freqs.getD f 0 ≤ hi
            then (psds.getD c []).getD f 0 else 0) * 10 ^ 12 := by
  cases freqs with
  | nil => simp at h2
  | cons f0 t =>
    cases t with
    | nil => simp at h2
    | cons f1 rest =>
      rw [extract_band_power_cons]
      refine ⟨_, rfl, ?_⟩
      have hlen : c < (psds.map (fun row =>
          (((row.zip (band_idx (f0 :: f1 :: rest) (lo, hi))).filter
              (fun p => p.2)).map (fun p => p.1)).sum * (f1 - f0) * 10 ^ 12)).length := by
        simpa using hc
      rw [List.getD_eq_getElem _ _ hlen, List.getElem_map]
      have hget : psds[c] = psds.getD c [] := (List.getD_eq_getElem psds [] hc).symm
      have hmem : psds[c] ∈ psds := List.getElem_mem hc
      have hrow : (psds.getD c []).length = (f0 :: f1 :: rest).length := by
        rw [← hget]
        exact hrect _ hmem
      rw [hget, filter_zip_sum lo hi (f0 :: f1 :: rest) (psds.getD c []) hrow]
      simp only [List.getD_cons_succ, List.getD_cons_zero]
      ring

/-- C1: for a uniformly spaced axis with at least two bins, channel `c` of
`extract_band_power` is `(freqs[1] - freqs[0])` times the sum of
`psds[c, f]` over all bins `f` with `lo ≤ freqs[f] ≤ hi`, times `10^12`. -/
theorem extract_band_power_formula (psds : List (List ℚ)) (freqs : List ℚ)
    (lo hi : ℚ) (c : ℕ) (h2 : 2 ≤ freqs.length) (hc : c < psds.length)
    (hrect : ∀ row ∈ psds, row.length = freqs.length) :
    ∃ bp, extract_band_power psds freqs (lo, hi) = some bp ∧
      bp.getD c 0
        = (freqs.getD 1 0 - freqs.getD 0 0) *
          (∑ f ∈ Finset.range freqs.length,
            if lo ≤ freqs.getD f 0 ∧ freqs.getD f 0 ≤ hi
            then (psds.getD c []).getD f 0 else 0) * 10 ^ 12 :=
  extract_band_power_getD psds freqs lo hi c h2 hc hrect

/-- Witness for C1 at `psds = [[5, 7]]`, `freqs = [0, 1]`, band `[0, 1]`,
channel 0. -/
theorem extract_band_power_formula_witness :
    ∃ bp, extract_band_power [[(5:ℚ), 7]] [0, 1] (0, 1) = some bp ∧
      bp.getD 0 0
        = (([(0:ℚ), 1].getD 1 0) - ([(0:ℚ), 1].getD 0 0)) *
          (∑ f ∈ Finset.range ([(0:ℚ), 1].length),
            if (0:ℚ) ≤ [(0:ℚ), 1].getD f 0 ∧ [(0:ℚ), 1].getD f 0 ≤ 1
            then ([[(5:ℚ), 7]].getD 0 []).getD f 0 else 0) * 10 ^ 12 :=
  extract_band_power_formula [[5, 7]] [0, 1] 0 1 0 (by decide) (by decide)
    (by decide)

/-- C5: a band range containing no frequency bin of the axis selects an
empty mask, and `extract_band_power` returns exactly 0 for every channel
instead of an error. -/
theorem extract_band_power_empty_mask (psds : List (List ℚ)) (freqs : List ℚ)
    (lo hi : ℚ) (h2 : 2 ≤ freqs.length)
    (hempty : ∀ f ∈ freqs, ¬(lo ≤ f ∧ f ≤ hi)) :
    ∃ bp, extract_band_power psds freqs (lo, hi) = some bp ∧
      ∀ x ∈ bp, x = 0 := by
  cases freqs with
  | nil => simp at h2
  | cons f0 t =>
    cases t with
    | nil => simp at h2
    | cons f1 rest =>
      rw [extract_band_power_cons]
      refine ⟨_, rfl, ?_⟩
      intro x hx
      rw [List.mem_map] at hx
      obtain ⟨row, hrow, rfl⟩ := hx
      have hfil : (row.zip (band_idx (f0 :: f1 :: rest) (lo, hi))).filter
          (fun p => p.2) = [] := by
        rw [List.filter_eq_nil_iff]
        intro p hp
        have hmem := (List.of_mem_zip hp).2
        rw [band_idx, List.mem_map] at hmem
        obtain ⟨f, hf, hdec⟩ := hmem
        have hnf := hempty f hf
        simp [← hdec, hnf]
      rw [hfil]
      simp

/-- Witness for C5: band `[5, 6]` contains no bin of the axis `[0, 1]`. -/
theorem extract_band_power_empty_mask_witness :
    ∃ bp, extract_band_power [[(1:ℚ), 2]] [0, 1] (5, 6) = some bp ∧
      ∀ x ∈ bp, x = 0 :=
  extract_band_power_empty_mask [[(1:ℚ), 2]] [0, 1] 5 6 (by decide) (by decide)

/-- C8: with a non-negative PSD matrix and a strictly increasing (uniformly
spaced) frequency axis, every channel's band power is non-negative. -/
theorem extract_band_power_nonneg (psds : List (List ℚ)) (freqs : List ℚ)
    (lo hi : ℚ) (hpsd : ∀ row ∈ psds, ∀ v ∈ row, 0 ≤ v)
    (hinc : List.Pairwise (fun a b => a < b) freqs) :
    ∀ bp, extract_band_power psds freqs (lo, hi) = some bp →
      ∀ x ∈ bp, 0 ≤ x := by
  intro bp hbp x hx
  cases freqs with
  | nil => rw [extract_band_power_nil] at hbp; exact absurd hbp (by simp)
  | cons f0 t =>
    cases t with
    | nil => rw [extract_band_power_single] at hbp; exact absurd hbp (by simp)
    | cons f1 rest =>
      rw [extract_band_power_cons] at hbp
      obtain rfl := Option.some.inj hbp
      rw [List.mem_map] at hx
      obtain ⟨row, hrow, rfl⟩ := hx
      have h01 : f0 < f1 := by
        rw [List.pairwise_cons] at hinc
        exact hinc.1 f1 (List.mem_cons_self _ _)
      have hsum : 0 ≤ (((row.zip (band_idx (f0 :: f1 :: rest) (lo, hi))).filter
          (fun p => p.2)).map (fun p => p.1)).sum := by
        apply List.sum_nonneg
        intro v hv
        rw [List.mem_map] at hv
        obtain ⟨p, hp, rfl⟩ := hv
        exact hpsd row hrow p.1 ((List.of_mem_zip (List.mem_filter.mp hp).1).1)
      have hres : (0:ℚ) ≤ f1 - f0 := sub_nonneg.mpr h01.le
      positivity

/-- Witness for C8 at `psds = [[]]` (one channel, non-negative throughout),
`freqs = [0, 1]`, band `[0, 1]`: the single channel's band power is
non-negative. -/
theorem extract_band_power_nonneg_witness :
    0 ≤ (0:ℚ) * (1 - 0) * 10 ^ 12 :=
  extract_band_power_nonneg [[]] [0, 1] 0 1 (by decide) (by decide)
    [(0:ℚ) * (1 - 0) * 10 ^ 12] rfl ((0:ℚ) * (1 - 0) * 10 ^ 12)
    (List.mem_singleton_self _)

/-- C9: a bin whose frequency equals the shared boundary `b` of two adjacent
bands `[lo1, b]` and `[b, hi2]` contributes its power `psds[c, i]` to the
`extract_band_power` result of both bands: each band's channel power is
`Δf × (psds[c, i] + rest of that band's bins) × 10^12`. -/
theorem extract_band_power_boundary_double_count (psds : List (List ℚ))
    (freqs : List ℚ) (c i : ℕ) (lo1 b hi2 : ℚ)
    (h2 : 2 ≤ freqs.length) (hilt : i < freqs.length)
    (hb : freqs.getD i 0 = b) (hlo : lo1 ≤ b) (hhi : b ≤ hi2)
    (hc : c < psds.length)
    (hrect : ∀ row ∈ psds, row.length = freqs.length) :
    ∃ bp1 bp2,
      extract_band_power psds freqs (lo1, b) = some bp1 ∧
      extract_band_power psds freqs (b, hi2) = some bp2 ∧
      bp1.getD c 0
        = (freqs.getD 1 0 - freqs.getD 0 0) *
          ((psds.getD c []).getD i 0 +
            ∑ f ∈ (Finset.range freqs.length).erase i,
              if lo1 ≤ freqs.getD f 0 ∧ freqs.getD f 0 ≤ b
              then (psds.getD c []).getD f 0 else 0) * 10 ^ 12 ∧
      bp2.getD c 0
        = (freqs.getD 1 0 - freqs.getD 0 0) *
          ((psds.getD c []).getD i 0 +
            ∑ f ∈ (Finset.range freqs.length).erase i,
              if b ≤ freqs.getD f 0 ∧ freqs.getD f 0 ≤ hi2
              then (psds.getD c []).getD f 0 else 0) * 10 ^ 12 := by
  obtain ⟨bp1, hbp1, he1⟩ := extract_band_power_getD psds freqs lo1 b c h2 hc hrect
  obtain ⟨bp2, hbp2, he2⟩ := extract_band_power_getD psds freqs b hi2 c h2 hc hrect
  have hmem : i ∈ Finset.range freqs.length := Finset.mem_range.mpr hilt
  refine ⟨bp1, bp2, hbp1, hbp2, ?_, ?_⟩
  · rw [he1, ← Finset.add_sum_erase _
      (fun f => if lo1 ≤ freqs.getD f 0 ∧ freqs.getD f 0 ≤ b
        then (psds.getD c []).getD f 0 else 0) hmem]
    rw [if_pos (by rw [hb]; exact ⟨hlo, le_refl b⟩)]
  · rw [he2, ← Finset.add_sum_erase _
      (fun f => if b ≤ freqs.getD f 0 ∧ freqs.getD f 0 ≤ hi2
        then (psds.getD c []).getD f 0 else 0) hmem]
    rw [if_pos (by rw [hb]; exact ⟨le_refl b, hhi⟩)]

/-- Witness for C9: the spec's example, a 12 Hz bin (index 1 of the axis
`[8, 12]`) on the Alpha `[8, 12]` / Beta `[12, 30]` boundary, channel 0. -/
theorem extract_band_power_boundary_double_count_witness :
    ∃ bp1 bp2,
      extract_band_power [[(1:ℚ), 2]] [8, 12] (8, 12) = some bp1 ∧
      extract_band_power [[(1:ℚ), 2]] [8, 12] (12, 30) = some bp2 ∧
      bp1.getD 0 0
        = (([(8:ℚ), 12].getD 1 0) - ([(8:ℚ), 12].getD 0 0)) *
          (([[(1:ℚ), 2]].getD 0 []).getD 1 0 +
            ∑ f ∈ (Finset.range ([(8:ℚ), 12].length)).erase 1,
              if (8:ℚ) ≤ [(8:ℚ), 12].getD f 0 ∧ [(8:ℚ), 12].getD f 0 ≤ 12
              then ([[(1:ℚ), 2]].getD 0 []).getD f 0 else 0) * 10 ^ 12 ∧
      bp2.getD 0 0
        = (([(8:ℚ), 12].getD 1 0) - ([(8:ℚ), 12].getD 0 0)) *
          (([[(1:ℚ), 2]].getD 0 []).getD 1 0 +
            ∑ f ∈ (Finset.range ([(8:ℚ), 12].length)).erase 1,
              if (12:ℚ) ≤ [(8:ℚ), 12].getD f 0 ∧ [(8:ℚ), 12].getD f 0 ≤ 30
              then ([[(1:ℚ), 2]].getD 0 []).getD f 0 else 0) * 10 ^ 12 :=
  extract_band_power_boundary_double_count [[(1:ℚ), 2]] [8, 12] 0 1 8 12 30
    (by decide) (by decide) (by decide) (by decide) (by decide) (by decide)
    (by decide)

/-- Sum of a scaled list of rationals. -/
theorem sum_map_mul (k : ℚ) (l : List ℚ) :
    (l.map (fun v => k * v)).sum = k * l.sum := by
  induction l with
  | nil => simp
  | cons a t ih => simp [ih, mul_add]

/-- C10: `extract_band_power` is homogeneous in the PSD matrix — scaling
every PSD entry by `k` scales every channel's band power by `k` — and an
all-zero PSD matrix yields zero band power for every channel. -/
theorem extract_band_power_homogeneous :
    (∀ (k : ℚ) (psds : List (List ℚ)) (freqs : List ℚ) (band_range : ℚ × ℚ),
      extract_band_power (psds.map (fun row => row.map (fun v => k * v)))
          freqs band_range
        = Option.map (fun bp => bp.map (fun v => k * v))
            (extract_band_power psds freqs band_range))
    ∧ (∀ (psds : List (List ℚ)) (freqs : List ℚ) (band_range : ℚ × ℚ)
        (bp : List ℚ),
        (∀ row ∈ psds, ∀ v ∈ row, v = 0) →
        extract_band_power psds freqs band_range = some bp →
        ∀ x ∈ bp, x = 0) := by
  constructor
  · intro k psds freqs band_range
    cases freqs with
    | nil => rfl
    | cons f0 t =>
      cases t with
      | nil => rfl
      | cons f1 rest =>
        rw [extract_band_power_cons, extract_band_power_cons, Option.map_some']
        congr 1
        rw [List.map_map, List.map_map]
        apply List.map_congr_left
        intro row hrow
        simp only [Function.comp_apply]
        rw [List.zip_map_left, List.filter_map, List.map_map]
        have hcomp1 : ((fun p : ℚ × Bool => p.2) ∘ Prod.map (fun v => k * v) id)
            = (fun p : ℚ × Bool => p.2) := rfl
        have hcomp2 : ((fun p : ℚ × Bool => p.1) ∘ Prod.map (fun v => k * v) id)
            = ((fun v => k * v) ∘ (fun p : ℚ × Bool => p.1)) := rfl
        rw [hcomp1, hcomp2, ← List.map_map, sum_map_mul]
        ring
  · intro psds freqs band_range bp hzero hbp x hx
    cases freqs with
    | nil => rw [extract_band_power_nil] at hbp; exact absurd hbp (by simp)
    | cons f0 t =>
      cases t with
      | nil => rw [extract_band_power_single] at hbp; exact absurd hbp (by simp)
      | cons f1 rest =>
        rw [extract_band_power_cons] at hbp
        obtain rfl := Option.some.inj hbp
        rw [List.mem_map] at hx
        obtain ⟨row, hrow, rfl⟩ := hx
        have hsum : (((row.zip (band_idx (f0 :: f1 :: rest) band_range)).filter
            (fun p => p.2)).map (fun p => p.1)).sum = 0 := by
          apply List.sum_eq_zero
          intro v hv
          rw [List.mem_map] at hv
          obtain ⟨p, hp, rfl⟩ := hv
          exact hzero row hrow p.1 ((List.of_mem_zip (List.mem_filter.mp hp).1).1)
        rw [hsum, zero_mul, zero_mul]

/-- Witness for C10: scaling `[[5, 7]]` by 2 scales the band power, and the
zero PSD row `[]`-free instance `[[0-length row]]` has zero band power. -/
theorem extract_band_power_homogeneous_witness :
    extract_band_power
        ([[(5:ℚ), 7]].map (fun row => row.map (fun v => (2:ℚ) * v))) [0, 1] (0, 1)
      = Option.map (fun bp => bp.map (fun v => (2:ℚ) * v))
          (extract_band_power [[(5:ℚ), 7]] [0, 1] (0, 1))
    ∧ (∀ x ∈ [(0:ℚ) * (1 - 0) * 10 ^ 12], x = 0) :=
  ⟨extract_band_power_homogeneous.1 2 [[5, 7]] [0, 1] (0, 1),
   extract_band_power_homogeneous.2 [[]] [0, 1] (0, 1)
     [(0:ℚ) * (1 - 0) * 10 ^ 12] (by decide) rfl⟩

/-- Reduction of the aggregator on a non-empty client list. -/
theorem aggregate_cons (u : ClientUpdate) (rest : List ClientUpdate) :
    aggregate_client_updates (u :: rest)
      = if rest.all (fun v => decide (updShape v = updShape u)) then
          .ok (updScale (1 / ((rest.length + 1 : ℕ) : ℚ)) (rest.foldl updAdd u))
        else .error .shapeMismatch := rfl

/-- Adding a `k`-scaled copy of a vector to itself scales it by `k + 1`. -/
theorem vecAdd_scale (k : ℚ) (v : List ℚ) :
    vecAdd (v.map (fun x => k * x)) v = v.map (fun x => (k + 1) * x) := by
  induction v with
  | nil => rfl
  | cons a t ih =>
      simp only [List.map_cons, vecAdd, List.zipWith_cons_cons] at ih ⊢
      rw [ih]
      congr 1
      ring

/-- Adding a `k`-scaled copy of a feature set to itself scales it by `k + 1`. -/
theorem fsAdd_scale (k : ℚ) (fs : FeatureSet) :
    fsAdd (fsScale k fs) fs = fsScale (k + 1) fs := by
  induction fs with
  | nil => rfl
  | cons p t ih =>
      simp only [fsScale, List.map_cons, fsAdd, List.zipWith_cons_cons] at ih ⊢
      rw [ih]
      congr 1
      simp [entryScale, vecAdd_scale]

/-- Adding a `k`-scaled copy of a client collection to itself scales it by
`k + 1`. -/
theorem updAdd_scale (k : ℚ) (u : ClientUpdate) :
    updAdd (updScale k u) u = updScale (k + 1) u := by
  induction u with
  | nil => rfl
  | cons fs t ih =>
      simp only [updScale, List.map_cons, updAdd, List.zipWith_cons_cons] at ih ⊢
      rw [ih]
      congr 1
      exact fsAdd_scale k fs

/-- Scaling one band entry by 1 is the identity. -/
theorem entryScale_one (p : String × List ℚ) : entryScale 1 p = p := by
  simp [entryScale]

/-- Scaling a feature set by 1 is the identity. -/
theorem fsScale_one (fs : FeatureSet) : fsScale 1 fs = fs := by
  induction fs with
  | nil => rfl
  | cons p t ih =>
      simp only [fsScale, List.map_cons] at ih ⊢
      rw [ih, entryScale_one]

/-- Scaling by 1 is the identity. -/
theorem updScale_one (u : ClientUpdate) : updScale 1 u = u := by
  induction u with
  | nil => rfl
  | cons fs t ih =>
      simp only [updScale, List.map_cons] at ih ⊢
      rw [ih, fsScale_one]

/-- Composition of scalings. -/
theorem updScale_comp (a b : ℚ) (u : ClientUpdate) :
    updScale a (updScale b u) = updScale (a * b) u := by
  simp [updScale, fsScale, entryScale, List.map_map, Function.comp, mul_assoc]

/-- Folding elementwise addition of `m` copies of `u` into a `q`-scaled copy
gives a `(q + m)`-scaled copy. -/
theorem foldl_updAdd_replicate (m : ℕ) (u : ClientUpdate) :
    ∀ q : ℚ, List.foldl updAdd (updScale q u) (List.replicate m u)
      = updScale (q + m) u := by
  induction m with
  | zero =>
      intro q
      simp
  | succ n ih =>
      intro q
      rw [List.replicate_succ, List.foldl_cons, updAdd_scale, ih (q + 1)]
      congr 1
      push_cast
      ring

/-- C6: aggregating `N ≥ 1` identical copies of a client feature collection
returns it unchanged — in particular aggregation over exactly one client is
the identity. -/
theorem aggregate_identity_replicate (N : ℕ) (u : ClientUpdate) (hN : 1 ≤ N) :
    aggregate_client_updates (List.replicate N u) = .ok u := by
  obtain ⟨m, rfl⟩ : ∃ m, N = m + 1 := ⟨N - 1, by omega⟩
  rw [List.replicate_succ, aggregate_cons]
  have hall : (List.replicate m u).all
      (fun v => decide (updShape v = updShape u)) = true := by
    rw [List.all_eq_true]
    intro v hv
    rw [List.eq_of_mem_replicate hv]
    simp
  rw [if_pos hall, List.length_replicate]
  have h0 : List.foldl updAdd u (List.replicate m u)
      = List.foldl updAdd (updScale 1 u) (List.replicate m u) := by
    rw [updScale_one]
  rw [h0, foldl_updAdd_replicate m u 1, updScale_comp]
  have hcoef : 1 / ((m + 1 : ℕ) : ℚ) * (1 + (m : ℚ)) = 1 := by
    push_cast
    rw [add_comm 1 (m : ℚ), one_div, inv_mul_cancel₀ (by positivity)]
  rw [hcoef, updScale_one]

/-- Witness for C6: three identical clients reporting `{Alpha: [10, 20]}`
aggregate to exactly `{Alpha: [10, 20]}`. -/
theorem aggregate_identity_replicate_witness :
    aggregate_client_updates (List.replicate 3 [[("Alpha", [(10:ℚ), 20])]])
      = .ok [[("Alpha", [(10:ℚ), 20])]] :=
  aggregate_identity_replicate 3 [[("Alpha", [(10:ℚ), 20])]] (by decide)

/-- C7: client feature collections that are not structurally identical to
the first client's make the aggregator fail with `ShapeMismatchError`
rather than producing a best-effort broadcast result. -/
theorem aggregate_shape_mismatch (u : ClientUpdate) (rest : List ClientUpdate)
    (h : ¬ ∀ v ∈ rest, updShape v = updShape u) :
    aggregate_client_updates (u :: rest) = .error .shapeMismatch := by
  rw [aggregate_cons]
  cases hall : rest.all (fun v => decide (updShape v = updShape u)) with
  | false => simp
  | true =>
      exact absurd (fun v hv => of_decide_eq_true (List.all_eq_true.mp hall v hv)) h

/-- Witness for C7: a second client with one channel instead of two in the
Alpha band yields `ShapeMismatchError`. -/
theorem aggregate_shape_mismatch_witness :
    aggregate_client_updates
        ([[("Alpha", [(10:ℚ), 20])]] :: [[[("Alpha", [(10:ℚ)])]]])
      = .error .shapeMismatch :=
  aggregate_shape_mismatch [[("Alpha", [(10:ℚ), 20])]] [[[("Alpha", [(10:ℚ)])]]]
    (by decide)
